import Mathlib

/-!
Verification of the interned-string component (`util::atom`) of an HTML
parsing engine.  The component is a two-variant string value `Atom`:
either a reference into a precomputed static table of known strings
(`Static`, holding a `&'static str`), or an exclusively owned dynamic
string (`Owned`, holding a `StrBuf`).  Construction consults the table
once; equality and ordering use a pointer-identity fast path when both
operands are `Static`.

The embedding models a `&'static str` table reference as a pair of a
data address and its string content: two references may hold equal
content at distinct addresses (distinct static allocations of the same
text), and — as with `as_ptr`, which compares only the data pointer —
may share an address while holding different content (a shorter slice of
the same static data).  Rust's byte-wise lexicographic `str` comparison
coincides with code-point lexicographic order for UTF-8, so strings are
Lean `String`s compared character-wise.
-/

/-- Three-way lexicographic comparison of character sequences; the
embedding of `str::cmp` (byte-lexicographic on UTF-8, hence
code-point-lexicographic). -/
def lexCmp : List Char → List Char → Ordering
  | [], [] => Ordering.eq
  | [], _ :: _ => Ordering.lt
  | _ :: _, [] => Ordering.gt
  | a :: as, b :: bs =>
    if a < b then Ordering.lt
    else if b < a then Ordering.gt
    else lexCmp as bs

theorem lexCmp_self (l : List Char) : lexCmp l l = Ordering.eq := by
  induction l with
  | nil => rfl
  | cons a as ih => simpa [lexCmp] using ih

theorem lexCmp_eq_iff (l₁ l₂ : List Char) :
    lexCmp l₁ l₂ = Ordering.eq ↔ l₁ = l₂ := by
  induction l₁ generalizing l₂ with
  | nil => cases l₂ <;> simp [lexCmp]
  | cons a as ih =>
    cases l₂ with
    | nil => simp [lexCmp]
    | cons b bs =>
      by_cases hab : a < b
      · simp only [lexCmp, if_pos hab]
        constructor
        · intro h; exact Ordering.noConfusion h
        · intro h
          injection h with h1 _
          exact absurd (h1 ▸ hab) (lt_irrefl a)
      · by_cases hba : b < a
        · simp only [lexCmp, if_neg hab, if_pos hba]
          constructor
          · intro h; exact Ordering.noConfusion h
          · intro h
            injection h with h1 _
            exact absurd (h1 ▸ hba) (lt_irrefl a)
        · have heq : a = b := le_antisymm (not_lt.mp hba) (not_lt.mp hab)
          subst heq
          simp only [lexCmp, if_neg hab, if_neg hba, ih]
          simp

theorem lexCmp_lt_iff (l₁ l₂ : List Char) :
    lexCmp l₁ l₂ = Ordering.lt ↔ List.Lex (· < ·) l₁ l₂ := by
  induction l₁ generalizing l₂ with
  | nil =>
    cases l₂ with
    | nil =>
      simp only [lexCmp]
      constructor
      · intro h; exact Ordering.noConfusion h
      · intro h; cases h
    | cons b bs =>
      simp only [lexCmp]
      exact ⟨fun _ => List.Lex.nil, fun _ => trivial⟩
  | cons a as ih =>
    cases l₂ with
    | nil =>
      simp only [lexCmp]
      constructor
      · intro h; exact Ordering.noConfusion h
      · intro h; cases h
    | cons b bs =>
      by_cases hab : a < b
      · simp only [lexCmp, if_pos hab]
        exact ⟨fun _ => List.Lex.rel hab, fun _ => trivial⟩
      · by_cases hba : b < a
        · simp only [lexCmp, if_neg hab, if_pos hba]
          constructor
          · intro h; exact Ordering.noConfusion h
          · intro h
            cases h with
            | cons h3 => exact absurd hba (lt_irrefl a)
            | rel h' => exact absurd h' hab
        · have heq : a = b := le_antisymm (not_lt.mp hba) (not_lt.mp hab)
          subst heq
          simp only [lexCmp, if_neg hab, if_neg hba]
          constructor
          · intro h; exact List.Lex.cons ((ih bs).mp h)
          · intro h
            cases h with
            | cons h3 => exact (ih bs).mpr h3
            | rel h' => exact absurd h' hab

theorem lexCmp_gt_iff (l₁ l₂ : List Char) :
    lexCmp l₁ l₂ = Ordering.gt ↔ List.Lex (· < ·) l₂ l₁ := by
  induction l₁ generalizing l₂ with
  | nil =>
    cases l₂ with
    | nil =>
      simp only [lexCmp]
      constructor
      · intro h; exact Ordering.noConfusion h
      · intro h; cases h
    | cons b bs =>
      simp only [lexCmp]
      constructor
      · intro h; exact Ordering.noConfusion h
      · intro h; cases h
  | cons a as ih =>
    cases l₂ with
    | nil =>
      simp only [lexCmp]
      exact ⟨fun _ => List.Lex.nil, fun _ => trivial⟩
    | cons b bs =>
      by_cases hab : a < b
      · simp only [lexCmp, if_pos hab]
        constructor
        · intro h; exact Ordering.noConfusion h
        · intro h
          cases h with
          | cons h3 => exact absurd hab (lt_irrefl a)
          | rel h' => exact absurd hab (lt_asymm h')
      · by_cases hba : b < a
        · simp only [lexCmp, if_neg hab, if_pos hba]
          exact ⟨fun _ => List.Lex.rel hba, fun _ => trivial⟩
        · have heq : a = b := le_antisymm (not_lt.mp hba) (not_lt.mp hab)
          subst heq
          simp only [lexCmp, if_neg hab, if_neg hba]
          constructor
          · intro h; exact List.Lex.cons ((ih bs).mp h)
          · intro h
            cases h with
            | cons h3 => exact (ih bs).mpr h3
            | rel h' => exact absurd h' hab

/-- Embedding of Rust's `str` three-way comparison (`Ord::cmp`). -/
def strCmp (x y : String) : Ordering := lexCmp x.data y.data

/-- Embedding of Rust's `str` less-than (`PartialOrd::lt`). -/
def strLt (x y : String) : Bool := (strCmp x y).isLT

theorem string_lt_iff_lex (x y : String) :
    x < y ↔ List.Lex (· < ·) x.data y.data :=
  String.lt_iff_toList_lt

theorem strCmp_lt_iff (x y : String) : strCmp x y = Ordering.lt ↔ x < y :=
  (lexCmp_lt_iff x.data y.data).trans (string_lt_iff_lex x y).symm

theorem strCmp_eq_iff (x y : String) : strCmp x y = Ordering.eq ↔ x = y :=
  (lexCmp_eq_iff x.data y.data).trans String.ext_iff.symm

theorem strCmp_gt_iff (x y : String) : strCmp x y = Ordering.gt ↔ y < x :=
  (lexCmp_gt_iff x.data y.data).trans (string_lt_iff_lex y x).symm

theorem strLt_iff (x y : String) : strLt x y = true ↔ x < y := by
  unfold strLt
  rw [← strCmp_lt_iff]
  cases strCmp x y <;> simp [Ordering.isLT]

theorem strCmp_self (x : String) : strCmp x x = Ordering.eq :=
  lexCmp_self x.data

theorem strLt_self (x : String) : strLt x x = false := by
  unfold strLt
  rw [strCmp_self]
  rfl

/-- A `&'static str` reference as stored in the static table: its data
address (`as_ptr`) together with its content.  Distinct references may
hold equal content at different addresses, or share an address while
holding different content (a prefix slice of the same static data). -/
structure StaticStr where
  addr : Nat
  val : String
deriving DecidableEq

/-- Modelled from the spec: the Static Table `data::atoms` lives in
`mod data`, generated by an offline step and absent from the sources.
Per the spec it is an immutable exact-match lookup structure mapping
each known identifier string to a stable-address entry, with distinct
entries at distinct addresses.  The concrete entries reflect what the
component's tests attest: `"body"` is present, `"asdfghjk"` and `""`
are absent. -/
def atoms : List StaticStr := [⟨0, "a"⟩, ⟨1, "body"⟩]

/-- `data::atoms.find_key(&s)`: exact-match lookup returning the
table's stable `&'static str` key for `s` when present. -/
def find_key (s : String) : Option StaticStr :=
  atoms.find? (fun e => e.val == s)

/-- Interned string: `enum Atom { Static(&'static str), Owned(StrBuf) }`. -/
inductive Atom where
  | Static : StaticStr → Atom
  | Owned : String → Atom
deriving DecidableEq

namespace Atom

/-- `Atom::from_str`. -/
def from_str (s : String) : Atom :=
  match find_key s with
  | some k => Static k
  | none => Owned s

/-- `Atom::from_buf`. -/
def from_buf (s : String) : Atom :=
  match find_key s with
  | some k => Static k
  | none => Owned s

/-- `Atom::take_from_buf(&mut s)`: returns the produced atom together
with the contents the caller's slot holds afterwards (`s.truncate(0)`
on a table hit, `replace(s, StrBuf::new())` on a miss). -/
def take_from_buf (s : String) : Atom × String :=
  match find_key s with
  | some k => (Static k, "")
  | none => (Owned s, "")

/-- `Atom::fast_partial_eq`: when both operands are `Static`, compare
data addresses (`as_ptr`); otherwise no definitive answer. -/
def fast_partial_eq : Atom → Atom → Option Bool
  | Static x, Static y => some (x.addr == y.addr)
  | _, _ => none

/-- `Str::as_slice for Atom`. -/
def as_slice : Atom → String
  | Static s => s.val
  | Owned s => s

/-- `Str::into_owned for Atom`. -/
def into_owned : Atom → String
  | Static s => s.val
  | Owned s => s

/-- `Str::to_strbuf for Atom`. -/
def to_strbuf : Atom → String
  | Static s => s.val
  | Owned s => s

/-- `Str::into_strbuf for Atom`. -/
def into_strbuf : Atom → String
  | Static s => s.val
  | Owned s => s

/-- `Eq for Atom` (`fn eq`): trust the fast path in both directions,
fall back to content comparison otherwise. -/
def eq (a b : Atom) : Bool :=
  match a.fast_partial_eq b with
  | some r => r
  | none => a.as_slice == b.as_slice

/-- `Ord for Atom` (`fn lt`): only a positive fast-path answer
short-circuits (to `false`); everything else falls through to content
comparison. -/
def lt (a b : Atom) : Bool :=
  match a.fast_partial_eq b with
  | some true => false
  | _ => strLt a.as_slice b.as_slice

/-- `TotalOrd for Atom` (`fn cmp`): only a positive fast-path answer
short-circuits (to `Equal`); everything else falls through to content
comparison. -/
def cmp (a b : Atom) : Ordering :=
  match a.fast_partial_eq b with
  | some true => Ordering.eq
  | _ => strCmp a.as_slice b.as_slice

/-- Discriminator: is this the `Static` (table-reference) variant? -/
def isStatic : Atom → Bool
  | Static _ => true
  | Owned _ => false

/-- Discriminator: is this the `Owned` variant? -/
def isOwned : Atom → Bool
  | Static _ => false
  | Owned _ => true

/-- The canonicalization-completeness invariant of the spec, at the
level of a single value: a `Static` atom actually refers to an entry of
the static table (so its address and content are the table's). -/
def canonical : Atom → Bool
  | Static e => atoms.contains e
  | Owned _ => true

end Atom

theorem atoms_val_inj :
    ∀ e₁ ∈ atoms, ∀ e₂ ∈ atoms, e₁.val = e₂.val → e₁ = e₂ := by decide

theorem atoms_addr_inj :
    ∀ e₁ ∈ atoms, ∀ e₂ ∈ atoms, e₁.addr = e₂.addr → e₁ = e₂ := by decide

theorem find_key_some {s : String} {k : StaticStr}
    (h : find_key s = some k) : k ∈ atoms ∧ k.val = s := by
  refine ⟨List.mem_of_find?_eq_some h, ?_⟩
  have := List.find?_some h
  exact beq_iff_eq.mp this

theorem find_key_none {s : String} (h : find_key s = none) :
    ∀ e ∈ atoms, e.val ≠ s := by
  intro e he
  have := List.find?_eq_none.mp h e he
  simpa using this

theorem find_key_isSome_iff (s : String) :
    (find_key s).isSome = true ↔ ∃ e ∈ atoms, e.val = s := by
  constructor
  · intro h
    obtain ⟨k, hk⟩ := Option.isSome_iff_exists.mp h
    obtain ⟨hmem, hval⟩ := find_key_some hk
    exact ⟨k, hmem, hval⟩
  · intro ⟨e, he, hval⟩
    cases h : find_key s with
    | some k => rfl
    | none => exact absurd hval (find_key_none h e he)

namespace Atom

theorem from_buf_eq_from_str (s : String) : from_buf s = from_str s := rfl

theorem take_from_buf_fst (s : String) :
    (take_from_buf s).fst = from_str s := by
  unfold take_from_buf from_str
  cases find_key s <;> rfl

theorem take_from_buf_snd (s : String) : (take_from_buf s).snd = "" := by
  unfold take_from_buf
  cases find_key s <;> rfl

theorem as_slice_from_str (s : String) : (from_str s).as_slice = s := by
  unfold from_str
  cases h : find_key s with
  | some k => exact (find_key_some h).2
  | none => rfl

theorem canonical_from_str (s : String) : (from_str s).canonical = true := by
  unfold from_str
  cases h : find_key s with
  | some k =>
    have := (find_key_some h).1
    simpa [canonical, List.elem_iff] using this
  | none => rfl

theorem canonical_static_iff (e : StaticStr) :
    (Static e).canonical = true ↔ e ∈ atoms := by
  simp [canonical, List.elem_iff]

theorem eq_true_iff_of_canonical {a b : Atom}
    (ha : a.canonical = true) (hb : b.canonical = true) :
    Atom.eq a b = true ↔ a.as_slice = b.as_slice := by
  cases a with
  | Static x =>
    cases b with
    | Static y =>
      have hx : x ∈ atoms := (canonical_static_iff x).mp ha
      have hy : y ∈ atoms := (canonical_static_iff y).mp hb
      show (x.addr == y.addr : Bool) = true ↔ x.val = y.val
      constructor
      · intro h
        exact congrArg StaticStr.val
          (atoms_addr_inj x hx y hy (beq_iff_eq.mp h))
      · intro h
        exact beq_iff_eq.mpr
          (congrArg StaticStr.addr (atoms_val_inj x hx y hy h))
    | Owned t =>
      show (x.val == t : Bool) = true ↔ x.val = t
      exact beq_iff_eq
  | Owned s =>
    cases b with
    | Static y =>
      show (s == y.val : Bool) = true ↔ s = y.val
      exact beq_iff_eq
    | Owned t =>
      show (s == t : Bool) = true ↔ s = t
      exact beq_iff_eq

theorem addr_hyp_of_canonical {a b : Atom}
    (ha : a.canonical = true) (hb : b.canonical = true) :
    ∀ x y, a = Static x → b = Static y → x.addr = y.addr → x.val = y.val := by
  intro x y hx hy hxy
  subst hx; subst hy
  have hxm : x ∈ atoms := (canonical_static_iff x).mp ha
  have hym : y ∈ atoms := (canonical_static_iff y).mp hb
  exact congrArg StaticStr.val (atoms_addr_inj x hxm y hym hxy)

theorem order_content_of_addr {a b : Atom}
    (h : ∀ x y, a = Static x → b = Static y → x.addr = y.addr → x.val = y.val) :
    Atom.cmp a b = strCmp a.as_slice b.as_slice ∧
    Atom.lt a b = strLt a.as_slice b.as_slice := by
  cases a with
  | Static x =>
    cases b with
    | Static y =>
      cases hxy : (x.addr == y.addr : Bool) with
      | false =>
        constructor
        · show (match some (x.addr == y.addr) with
            | some true => Ordering.eq
            | _ => strCmp (Static x).as_slice (Static y).as_slice) = _
          rw [hxy]
        · show (match some (x.addr == y.addr) with
            | some true => false
            | _ => strLt (Static x).as_slice (Static y).as_slice) = _
          rw [hxy]
      | true =>
        have hval : x.val = y.val := h x y rfl rfl (beq_iff_eq.mp hxy)
        constructor
        · show (match some (x.addr == y.addr) with
            | some true => Ordering.eq
            | _ => strCmp (Static x).as_slice (Static y).as_slice) = _
          rw [hxy]
          show Ordering.eq = strCmp x.val y.val
          rw [hval, strCmp_self]
        · show (match some (x.addr == y.addr) with
            | some true => false
            | _ => strLt (Static x).as_slice (Static y).as_slice) = _
          rw [hxy]
          show false = strLt x.val y.val
          rw [hval, strLt_self]
    | Owned t => exact ⟨rfl, rfl⟩
  | Owned s => cases b <;> exact ⟨rfl, rfl⟩

end Atom

theorem Atom.eq_self (a : Atom) : Atom.eq a a = true := by
  cases a with
  | Static x =>
    show (x.addr == x.addr : Bool) = true
    exact beq_self_eq_true _
  | Owned s =>
    show (s == s : Bool) = true
    exact beq_self_eq_true _

theorem Atom.isOwned_eq_not_isStatic (a : Atom) : a.isOwned = !a.isStatic := by
  cases a <;> rfl

/-- Claim C1: each of the three construction operations (`from_str`,
`from_buf`, `take_from_buf`) returns the `Static` (table-reference)
variant exactly when the input string is present in the static table,
and the `Owned` variant exactly when it is absent. -/
theorem construction_static_iff_table (s : String) :
    ((Atom.from_str s).isStatic = true ↔ ∃ e ∈ atoms, e.val = s) ∧
    ((Atom.from_str s).isOwned = true ↔ ¬∃ e ∈ atoms, e.val = s) ∧
    ((Atom.from_buf s).isStatic = true ↔ ∃ e ∈ atoms, e.val = s) ∧
    ((Atom.from_buf s).isOwned = true ↔ ¬∃ e ∈ atoms, e.val = s) ∧
    (((Atom.take_from_buf s).fst).isStatic = true ↔ ∃ e ∈ atoms, e.val = s) ∧
    (((Atom.take_from_buf s).fst).isOwned = true ↔ ¬∃ e ∈ atoms, e.val = s) := by
  have hs : (Atom.from_str s).isStatic = true ↔ ∃ e ∈ atoms, e.val = s := by
    unfold Atom.from_str
    cases h : find_key s with
    | some k =>
      simp only [Atom.isStatic]
      exact ⟨fun _ => ⟨k, (find_key_some h).1, (find_key_some h).2⟩, fun _ => trivial⟩
    | none =>
      simp only [Atom.isStatic]
      constructor
      · intro hf; exact Bool.noConfusion hf
      · intro ⟨e, he, hv⟩; exact absurd hv (find_key_none h e he)
  have ho : (Atom.from_str s).isOwned = true ↔ ¬∃ e ∈ atoms, e.val = s := by
    rw [Atom.isOwned_eq_not_isStatic, Bool.not_eq_true', ← Bool.not_eq_true]
    exact not_congr hs
  refine ⟨hs, ho, ?_, ?_, ?_, ?_⟩
  · rw [Atom.from_buf_eq_from_str]; exact hs
  · rw [Atom.from_buf_eq_from_str]; exact ho
  · rw [Atom.take_from_buf_fst]; exact hs
  · rw [Atom.take_from_buf_fst]; exact ho

/-- Claim C2 (counterexample): the content-equivalence property fails
for a pair of `Static` atoms holding equal content at distinct
addresses (an invariant-violating pair constructible via the public
`Static` variant): their character sequences are equal but `eq` answers
`false`, because the fast path trusts a negative address comparison. -/
theorem eq_content_counterexample :
    (Atom.Static ⟨2, "body"⟩).as_slice = (Atom.Static ⟨3, "body"⟩).as_slice ∧
    Atom.eq (Atom.Static ⟨2, "body"⟩) (Atom.Static ⟨3, "body"⟩) = false :=
  ⟨rfl, rfl⟩

/-- Claim C2 (amended): for atoms satisfying the canonicalization
invariant (every `Static` payload is an entry of the static table —
true of all atoms produced by the construction operations), `eq` holds
exactly when the underlying character sequences are equal, regardless
of variant. -/
theorem eq_iff_content (a b : Atom)
    (ha : a.canonical = true) (hb : b.canonical = true) :
    Atom.eq a b = true ↔ a.as_slice = b.as_slice :=
  Atom.eq_true_iff_of_canonical ha hb

theorem eq_iff_content_witness :
    Atom.eq (Atom.from_str "body") (Atom.Owned "body") = true :=
  (eq_iff_content (Atom.from_str "body") (Atom.Owned "body")
    (by decide) (by decide)).mpr (by decide)

/-- Claim C3: for all strings, the ordering of freshly constructed
atoms is exactly the lexicographic ordering of the strings, and `cmp`
is the lexicographic three-way comparison, independent of table
residency. -/
theorem order_lexicographic (x y : String) :
    (Atom.lt (Atom.from_str x) (Atom.from_str y) = true ↔ x < y) ∧
    (Atom.cmp (Atom.from_str x) (Atom.from_str y) = Ordering.lt ↔ x < y) ∧
    (Atom.cmp (Atom.from_str x) (Atom.from_str y) = Ordering.eq ↔ x = y) ∧
    (Atom.cmp (Atom.from_str x) (Atom.from_str y) = Ordering.gt ↔ y < x) := by
  have h := Atom.order_content_of_addr
    (Atom.addr_hyp_of_canonical (Atom.canonical_from_str x) (Atom.canonical_from_str y))
  rw [Atom.as_slice_from_str, Atom.as_slice_from_str] at h
  rw [h.1, h.2]
  exact ⟨strLt_iff x y, strCmp_lt_iff x y, strCmp_eq_iff x y, strCmp_gt_iff x y⟩

/-- Claim C4: `fast_partial_eq` answers definitively (`some`) exactly
when both operands are `Static`, in which case the answer is address
equality; whenever an operand is `Owned` it answers `none` and `eq`
falls through to content comparison; and a negative fast-path answer
never decides an ordering — `lt` and `cmp` fall through to content
comparison on `some false`. -/
theorem fast_partial_eq_spec (a b : Atom) :
    ((a.fast_partial_eq b).isSome = true ↔ a.isStatic = true ∧ b.isStatic = true) ∧
    (∀ x y, a = Atom.Static x → b = Atom.Static y →
      a.fast_partial_eq b = some (x.addr == y.addr)) ∧
    (a.isOwned = true ∨ b.isOwned = true →
      a.fast_partial_eq b = none ∧ Atom.eq a b = (a.as_slice == b.as_slice)) ∧
    (a.fast_partial_eq b = some false →
      Atom.lt a b = strLt a.as_slice b.as_slice ∧
      Atom.cmp a b = strCmp a.as_slice b.as_slice) := by
  cases a with
  | Static x =>
    cases b with
    | Static y =>
      refine ⟨by simp [Atom.fast_partial_eq, Atom.isStatic], ?_, ?_, ?_⟩
      · intro u v hu hv
        injection hu with hu2
        injection hv with hv2
        subst hu2; subst hv2
        rfl
      · intro h
        cases h with
        | inl h => exact Bool.noConfusion h
        | inr h => exact Bool.noConfusion h
      · intro h
        injection h with h2
        exact ⟨by simp [Atom.lt, Atom.fast_partial_eq, h2],
               by simp [Atom.cmp, Atom.fast_partial_eq, h2]⟩
    | Owned t =>
      refine ⟨by simp [Atom.fast_partial_eq, Atom.isStatic], ?_, ?_, ?_⟩
      · intro u v _ hv; exact Atom.noConfusion hv
      · intro _; exact ⟨rfl, rfl⟩
      · intro h; exact Option.noConfusion h
  | Owned s =>
    cases b with
    | Static y =>
      refine ⟨by simp [Atom.fast_partial_eq, Atom.isStatic], ?_, ?_, ?_⟩
      · intro u v hu _; exact Atom.noConfusion hu
      · intro _; exact ⟨rfl, rfl⟩
      · intro h; exact Option.noConfusion h
    | Owned t =>
      refine ⟨by simp [Atom.fast_partial_eq, Atom.isStatic], ?_, ?_, ?_⟩
      · intro u v hu _; exact Atom.noConfusion hu
      · intro _; exact ⟨rfl, rfl⟩
      · intro h; exact Option.noConfusion h

theorem fast_partial_eq_spec_witness :
    Atom.fast_partial_eq (Atom.Owned "x") (Atom.Static ⟨0, "a"⟩) = none ∧
    Atom.eq (Atom.Owned "x") (Atom.Static ⟨0, "a"⟩) =
      ((Atom.Owned "x").as_slice == (Atom.Static ⟨0, "a"⟩).as_slice) :=
  (fast_partial_eq_spec (Atom.Owned "x") (Atom.Static ⟨0, "a"⟩)).2.2.1 (Or.inl rfl)

/-- Claim C5: `take_from_buf` always leaves the caller's slot holding
the empty string (table hit or miss), and the produced atom is exactly
the atom constructed from the slot's prior content — in particular its
character sequence is that prior content. -/
theorem take_from_buf_frame (s : String) :
    (Atom.take_from_buf s).snd = "" ∧
    (Atom.take_from_buf s).fst = Atom.from_str s ∧
    ((Atom.take_from_buf s).fst).as_slice = s :=
  ⟨Atom.take_from_buf_snd s, Atom.take_from_buf_fst s, by
    rw [Atom.take_from_buf_fst]
    exact Atom.as_slice_from_str s⟩

/-- Claim C6 (counterexample): the round-trip property fails for an
invariant-violating atom: a `Static` for `"body"` at a non-table
address has the same content after re-construction from its slice, yet
compares unequal to the original, because both operands are `Static`
and the address fast path answers `false`. -/
theorem roundtrip_counterexample :
    (Atom.from_str (Atom.Static ⟨5, "body"⟩).as_slice).as_slice =
      (Atom.Static ⟨5, "body"⟩).as_slice ∧
    Atom.eq (Atom.from_str (Atom.Static ⟨5, "body"⟩).as_slice)
      (Atom.Static ⟨5, "body"⟩) = false := by
  constructor <;> decide

/-- Claim C6 (amended): for every atom satisfying the canonicalization
invariant (all atoms the construction operations produce), re-building
from its borrowed slice or from its consumed owned string yields an
atom equal to the original. -/
theorem roundtrip_eq (a : Atom) (h : a.canonical = true) :
    Atom.eq (Atom.from_str a.as_slice) a = true ∧
    Atom.eq (Atom.from_buf a.into_strbuf) a = true := by
  have hslice : a.into_strbuf = a.as_slice := by cases a <;> rfl
  have hc := Atom.canonical_from_str a.as_slice
  constructor
  · exact (Atom.eq_true_iff_of_canonical hc h).mpr (Atom.as_slice_from_str _)
  · rw [hslice, Atom.from_buf_eq_from_str]
    exact (Atom.eq_true_iff_of_canonical hc h).mpr (Atom.as_slice_from_str _)

theorem roundtrip_eq_witness :
    Atom.eq (Atom.from_str (Atom.Owned "asdfghjk").as_slice)
      (Atom.Owned "asdfghjk") = true ∧
    Atom.eq (Atom.from_buf (Atom.Owned "asdfghjk").into_strbuf)
      (Atom.Owned "asdfghjk") = true :=
  roundtrip_eq (Atom.Owned "asdfghjk") (by decide)

/-- Claim C7: constructing from equal input strings yields equal atoms
(under any of the three constructors, which agree), and when the input
is table-resident both constructions yield the `Static` variant holding
the same table entry — hence the same address. -/
theorem construct_idempotent (s t : String) (h : s = t) :
    Atom.eq (Atom.from_str s) (Atom.from_str t) = true ∧
    Atom.eq (Atom.from_buf s) (Atom.from_buf t) = true ∧
    Atom.eq (Atom.take_from_buf s).fst (Atom.take_from_buf t).fst = true ∧
    (∀ e, find_key s = some e →
      Atom.from_str s = Atom.Static e ∧ Atom.from_str t = Atom.Static e) := by
  subst h
  refine ⟨Atom.eq_self _, ?_, ?_, ?_⟩
  · rw [Atom.from_buf_eq_from_str]
    exact Atom.eq_self _
  · rw [Atom.take_from_buf_fst]
    exact Atom.eq_self _
  · intro e he
    constructor <;> (unfold Atom.from_str; rw [he])

theorem construct_idempotent_witness :
    Atom.eq (Atom.from_str "body") (Atom.from_str "body") = true ∧
    Atom.from_str "body" = Atom.Static ⟨1, "body"⟩ := by
  have h := construct_idempotent "body" "body" rfl
  exact ⟨h.1, (h.2.2.2 ⟨1, "body"⟩ (by decide)).1⟩

/-- Claim C8: every conversion preserves content: `as_slice` returns
exactly the underlying character sequence of either variant, and
`into_owned`, `to_strbuf` and `into_strbuf` each produce a string whose
characters equal that same sequence. -/
theorem conversions_preserve_content (a : Atom) :
    (∀ e, a = Atom.Static e → a.as_slice = e.val) ∧
    (∀ s, a = Atom.Owned s → a.as_slice = s) ∧
    a.into_owned = a.as_slice ∧
    a.to_strbuf = a.as_slice ∧
    a.into_strbuf = a.as_slice := by
  refine ⟨?_, ?_, ?_, ?_, ?_⟩
  · intro e he; subst he; rfl
  · intro s hs; subst hs; rfl
  · cases a <;> rfl
  · cases a <;> rfl
  · cases a <;> rfl

theorem conversions_preserve_content_witness :
    (Atom.Static ⟨1, "body"⟩).as_slice = "body" ∧
    (Atom.Owned "x").as_slice = "x" :=
  ⟨(conversions_preserve_content (Atom.Static ⟨1, "body"⟩)).1 ⟨1, "body"⟩ rfl,
   (conversions_preserve_content (Atom.Owned "x")).2.1 "x" rfl⟩

/-- Claim C9: the constructors are total — every input string yields
either a `Static` table entry or an `Owned` copy of the input, the
three constructors agree, and a table-lookup miss is not an error but
unconditionally falls back to `Owned` (leaving an empty slot for the
take form). Equality, ordering and the conversions are likewise total
Lean functions over all atoms by construction. -/
theorem operations_total (s : String) :
    ((∃ e, e ∈ atoms ∧ Atom.from_str s = Atom.Static e) ∨
      Atom.from_str s = Atom.Owned s) ∧
    (Atom.from_buf s = Atom.from_str s) ∧
    ((Atom.take_from_buf s).fst = Atom.from_str s) ∧
    (find_key s = none →
      Atom.from_str s = Atom.Owned s ∧
      Atom.from_buf s = Atom.Owned s ∧
      Atom.take_from_buf s = (Atom.Owned s, "")) := by
  refine ⟨?_, Atom.from_buf_eq_from_str s, Atom.take_from_buf_fst s, ?_⟩
  · cases h : find_key s with
    | some k =>
      refine Or.inl ⟨k, (find_key_some h).1, ?_⟩
      unfold Atom.from_str
      rw [h]
    | none =>
      refine Or.inr ?_
      unfold Atom.from_str
      rw [h]
  · intro h
    refine ⟨?_, ?_, ?_⟩
    · unfold Atom.from_str; rw [h]
    · unfold Atom.from_buf; rw [h]
    · unfold Atom.take_from_buf; rw [h]

theorem operations_total_witness :
    Atom.from_str "asdfghjk" = Atom.Owned "asdfghjk" ∧
    Atom.from_buf "asdfghjk" = Atom.Owned "asdfghjk" ∧
    Atom.take_from_buf "asdfghjk" = (Atom.Owned "asdfghjk", "") :=
  (operations_total "asdfghjk").2.2.2 (by decide)

/-- Claim C10 (counterexample): the ordering operations are not correct
for ALL invariant-violating atoms: two `Static` references sharing a
data address while holding different content (as `as_ptr` equality
permits for a prefix slice of the same static data) make the fast path
answer `some true`, so `lt` answers `false` and `cmp` answers `Equal`
although the contents compare strictly less. -/
theorem order_fastpath_counterexample :
    (Atom.Static ⟨7, "abc"⟩).as_slice < (Atom.Static ⟨7, "xyz"⟩).as_slice ∧
    Atom.lt (Atom.Static ⟨7, "abc"⟩) (Atom.Static ⟨7, "xyz"⟩) = false ∧
    Atom.cmp (Atom.Static ⟨7, "abc"⟩) (Atom.Static ⟨7, "xyz"⟩) = Ordering.eq := by
  refine ⟨?_, by decide, by decide⟩
  exact (strCmp_lt_iff "abc" "xyz").mp (by decide)

/-- Claim C10 (amended): `lt` and `cmp` return the correct
lexicographic result for all atoms — including pairs violating
canonicalization completeness by holding equal content at different
addresses — provided equal-address `Static` operands hold equal
content; a negative fast-path answer is discarded by the wildcard arm
and content comparison is performed anyway, unlike `eq`, which trusts
`some false`. -/
theorem order_content_correct (a b : Atom)
    (h : ∀ x y, a = Atom.Static x → b = Atom.Static y →
      x.addr = y.addr → x.val = y.val) :
    (Atom.lt a b = true ↔ a.as_slice < b.as_slice) ∧
    (Atom.cmp a b = Ordering.lt ↔ a.as_slice < b.as_slice) ∧
    (Atom.cmp a b = Ordering.eq ↔ a.as_slice = b.as_slice) ∧
    (Atom.cmp a b = Ordering.gt ↔ b.as_slice < a.as_slice) := by
  have hh := Atom.order_content_of_addr h
  rw [hh.1, hh.2]
  exact ⟨strLt_iff _ _, strCmp_lt_iff _ _, strCmp_eq_iff _ _, strCmp_gt_iff _ _⟩

theorem order_content_correct_witness :
    Atom.lt (Atom.Static ⟨5, "body"⟩) (Atom.Static ⟨9, "body"⟩) = false ∧
    Atom.cmp (Atom.Static ⟨5, "body"⟩) (Atom.Static ⟨9, "body"⟩) = Ordering.eq := by
  have hp : ∀ x y, (Atom.Static ⟨5, "body"⟩ : Atom) = Atom.Static x →
      (Atom.Static ⟨9, "body"⟩ : Atom) = Atom.Static y →
      x.addr = y.addr → x.val = y.val := by
    intro x y hx hy hxy
    injection hx with hx2
    injection hy with hy2
    subst hx2; subst hy2
    exact absurd hxy (by decide)
  have h := order_content_correct (Atom.Static ⟨5, "body"⟩) (Atom.Static ⟨9, "body"⟩) hp
  refine ⟨?_, h.2.2.1.mpr rfl⟩
  cases hlt : Atom.lt (Atom.Static ⟨5, "body"⟩) (Atom.Static ⟨9, "body"⟩) with
  | false => rfl
  | true => exact absurd (h.1.mp hlt) (lt_irrefl _)
